import Mathlib

/-
Verification of the incremental reconciliation engine in pygui
(src/pygui/__init__.py) against its natural-language specification.

The Python code is shallowly embedded as executable Lean definitions:

- Host handles (pygfx objects) are modelled as natural-number identifiers,
  so that identity (by reference) of a host node is identity of its id.
- Python dicts of props are modelled as association lists (PropMap) whose
  iteration order is list order, matching dict insertion order.
- Fiber dicts are modelled by dedicated structures.  The parent pointer of
  a fiber is not stored; where the source walks parent links to find the
  nearest ancestor with a host node, the embedding passes that ancestor
  host node downward, which computes the same value on a tree.
- Mutation is modelled by returning updated values; the single caller-visible
  in-place mutation of the library (create_element popping the reserved
  key entry out of the props dict passed by the caller) is modelled with an
  explicit store of mappings addressed by natural numbers.
-/

namespace PyGuiSpec

/-- Effect tags, mirroring the EffectTag enum of the source. -/
inductive EffectTag where
  | UPDATE
  | PLACEMENT
  | DELETION
deriving DecidableEq, Repr

/-- Property values: strings, numbers, or event-handler references.
Handler identity (Python object identity of a callback) is a Nat id. -/
inductive Value where
  | str (s : String)
  | num (n : Int)
  | handler (id : Nat)
deriving DecidableEq, Repr

/-- A node type: a host tag (string, compared by value) or a component
reference (a Python callable, compared by identity; modelled as a Nat id).
Python equality on these two cases is exactly decidable equality here. -/
inductive FType where
  | host (tag : String)
  | comp (id : Nat)
deriving DecidableEq, Repr

/-- A props dict: association list, first occurrence wins on lookup,
iteration in list order (dict insertion order). -/
abbrev PropMap := List (String × Value)

/-- Dict lookup, mirroring props.get(name). -/
def getProp (m : PropMap) (k : String) : Option Value :=
  List.lookup k m

/-- Virtual node, mirroring the VNode dataclass of the source. -/
inductive VNode where
  | mk (ty : FType) (props : PropMap) (children : List VNode) (key : Option String) : VNode

def VNode.type : VNode → FType
  | .mk t _ _ _ => t

def VNode.props : VNode → PropMap
  | .mk _ p _ _ => p

def VNode.children : VNode → List VNode
  | .mk _ _ c _ => c

def VNode.key : VNode → Option String
  | .mk _ _ _ k => k

/-! ## update_dom

The source diffs previous and next props in four passes over the dicts and
issues renderer calls.  The embedding returns the issued calls in order. -/

/-- One renderer call issued by update_dom, in issue order. -/
inductive DomOp where
  | removeListener (event : String) (v : Value)
  | clearAttr (k : String) (v : Value)
  | setAttr (k : String) (v : Value)
  | addListener (event : String) (v : Value)
deriving DecidableEq, Repr

/-- key.startswith of the two characters o n: the name denotes an event
listener.  Implemented over the character list of the string so that it
evaluates by kernel reduction. -/
def isEvent (k : String) : Bool :=
  match k.data with
  | 'o' :: 'n' :: _ => true
  | _ => false

def isProperty (k : String) : Bool :=
  !isEvent k

/-- is_new(val, other, key) of the source: val != other.get(key). -/
def isNew (val : Value) (other : PropMap) (k : String) : Bool :=
  getProp other k ≠ some val

/-- name.lower() with the first two characters sliced off — the event type
of a listener prop name.  Implemented over the character list of the string
so that it evaluates by kernel reduction. -/
def eventType (name : String) : String :=
  String.mk ((name.data.map Char.toLower).drop 2)

/-- Shallow embedding of update_dom(dom, prev_props, next_props): the list of
renderer calls issued, in order.  Four passes exactly as in the source:
remove old event listeners, remove old properties, set new or changed
properties, add new event listeners.  Note the guard of the first pass is
taken verbatim from the source: it skips a listener name that is absent
from next_props (the source line reads: if name not in next_props or not
is_new(val, next_props, name): continue). -/
def updateDom (prevProps nextProps : PropMap) : List DomOp :=
  (prevProps.filterMap (fun nv =>
    if isEvent nv.1 ∧ (getProp nextProps nv.1).isSome ∧ isNew nv.2 nextProps nv.1 then
      some (DomOp.removeListener (eventType nv.1) nv.2)
    else none)) ++
  (prevProps.filterMap (fun kv =>
    if isProperty kv.1 ∧ ¬(getProp nextProps kv.1).isSome then
      some (DomOp.clearAttr kv.1 kv.2)
    else none)) ++
  (nextProps.filterMap (fun kv =>
    if isProperty kv.1 ∧ isNew kv.2 prevProps kv.1 then
      some (DomOp.setAttr kv.1 kv.2)
    else none)) ++
  (nextProps.filterMap (fun nv =>
    if isEvent nv.1 ∧ getProp prevProps nv.1 ≠ getProp nextProps nv.1 then
      some (DomOp.addListener (eventType nv.1) nv.2)
    else none))

/-! ## reconcile_children

The source walks the new element list and the old sibling chain in lockstep
by position; the old sibling chain is the list of children of the alternate
fiber.  Keys are never consulted (the source carries a TODO remark to that
effect).  Old fibers are modelled without their own alternate link, which
reconcile_children never reads. -/

/-- A fiber of the previous (current) generation, as read by
reconcile_children: its type, props, declared children, host node (dom) and
effect tag (mutated to DELETION when the fiber is dropped). -/
structure OldFiber where
  ty : FType
  props : PropMap
  childrenDesc : List VNode
  dom : Option Nat
  effect : Option EffectTag

/-- A fiber of the work-in-progress generation as built by
reconcile_children. -/
structure NewFiber where
  ty : FType
  props : PropMap
  childrenDesc : List VNode
  dom : Option Nat
  alternate : Option OldFiber
  effect : EffectTag

/-- Shallow embedding of PyGui.reconcile_children: given the old sibling
chain (alternate child chain) and the new element list, returns the new
child fiber chain (in element order) and the fibers appended to
self.deletions (in append order).  The positional while loop of the source
advances both sequences together; element.type == old_fiber type decides
update versus placement plus deletion.  Keys are not consulted. -/
def reconcileChildren (olds : List OldFiber) : List VNode → List NewFiber × List OldFiber
  | [] =>
    -- elements exhausted: every remaining old fiber is tagged DELETION and
    -- appended to the deletion list in sibling order; no chain entry is made
    ([], olds.map (fun old => { old with effect := some EffectTag.DELETION }))
  | el :: els =>
    match olds with
    | [] =>
      -- no old fiber: placement, dom None, alternate None
      let r := reconcileChildren [] els
      ({ ty := el.type, props := el.props, childrenDesc := el.children,
         dom := none, alternate := none, effect := EffectTag.PLACEMENT } :: r.1,
       r.2)
    | old :: olds =>
      if el.type = old.ty then
        -- same type: update in place, reuse dom, link alternate
        let r := reconcileChildren olds els
        ({ ty := old.ty, props := el.props, childrenDesc := el.children,
           dom := old.dom, alternate := some old, effect := EffectTag.UPDATE } :: r.1,
         r.2)
      else
        -- type changed: place the new node and delete the old fiber
        let r := reconcileChildren olds els
        ({ ty := el.type, props := el.props, childrenDesc := el.children,
           dom := none, alternate := none, effect := EffectTag.PLACEMENT } :: r.1,
         { old with effect := some EffectTag.DELETION } :: r.2)

/-! ## Claim C1 — keyed identity (code bug)

The repository test test_reconcile_by_key renders keyed siblings a, b, c
with host handles 10, 11, 12 and re-renders them as c, a, b, expecting each
child to keep its handle (handle order 12, 10, 11 at the new positions).
reconcile_children matches positionally by type instead, so the new chain
reuses handles 10, 11, 12 in place: the child keyed c receives the handle
previously owned by the child keyed a. -/

def c1Item (content : String) : VNode :=
  VNode.mk (FType.host "item") [("content", Value.str content)] [] (some content)

def c1Olds : List OldFiber :=
  [ { ty := FType.host "item", props := [("content", Value.str "a")],
      childrenDesc := [], dom := some 10, effect := some EffectTag.PLACEMENT },
    { ty := FType.host "item", props := [("content", Value.str "b")],
      childrenDesc := [], dom := some 11, effect := some EffectTag.PLACEMENT },
    { ty := FType.host "item", props := [("content", Value.str "c")],
      childrenDesc := [], dom := some 12, effect := some EffectTag.PLACEMENT } ]

def c1Els : List VNode := [c1Item "c", c1Item "a", c1Item "b"]

/-- Claim C1 (code bug): re-rendering keyed siblings a, b, c as c, a, b
does not preserve per-key host handles.  The reconciler assigns the old
handles positionally (10, 11, 12), not by key (12, 10, 11): the fiber now
keyed c holds the handle that the fiber keyed a had before the reorder, in
contradiction with the keyed-identity property asserted by the claim and by
the repository test test_reconcile_by_key. -/
theorem c1_reconcile_ignores_keys :
    ((reconcileChildren c1Olds c1Els).1.map (fun f => f.dom))
      = [some 10, some 11, some 12] ∧
    ((reconcileChildren c1Olds c1Els).1.map (fun f => f.dom))
      ≠ [some 12, some 10, some 11] := by
  constructor
  · rfl
  · decide

/-! ## Claim C2 — removal of dropped event listeners (code bug)

The first pass of update_dom skips any listener name that is absent from
next_props, so a listener that is dropped between renders is never
unregistered from the host node.  The claim (and the spec) require it to be
removed. -/

/-- Claim C2 (code bug): with previous props carrying an onClick listener
and next props empty, update_dom issues no renderer call at all; in
particular no removeListener call for the dropped listener, contradicting
the claim that a listener present before and absent after is removed. -/
theorem c2_removed_listener_never_unregistered :
    updateDom [("onClick", Value.handler 0)] [] = [] ∧
    DomOp.removeListener "click" (Value.handler 0)
      ∉ updateDom [("onClick", Value.handler 0)] [] := by
  constructor
  · rfl
  · decide

/-! ## perform_unit_of_work — the unit-of-work successor

Work-in-progress fibers are linked exactly as in the source: each fiber has
a first-child pointer and a next-sibling pointer (None modelled by the
constructor nilF), and a label identifying it.  The parent pointer of the
source is represented by the stack of ancestors of the current fiber, so
the upward walk of perform_unit_of_work (fiber, then parent, then
grandparent, looking for a next sibling) is a walk over that stack. -/

inductive Fib where
  | nilF : Fib
  | nodeF (label : Nat) (child : Fib) (sibling : Fib) : Fib
deriving DecidableEq, Repr

def Fib.sibling : Fib → Fib
  | .nilF => .nilF
  | .nodeF _ _ s => s

@[simp]
theorem Fib.sibling_nilF : Fib.sibling .nilF = .nilF := rfl

@[simp]
theorem Fib.sibling_nodeF (l : Nat) (c s : Fib) :
    Fib.sibling (.nodeF l c s) = s := rfl

/-- The while loop of perform_unit_of_work: starting with the fiber itself
and moving to the parent each round, return the first next sibling found
(its ancestor stack is the remainder); None when every level is exhausted. -/
def upWalk : List Fib → Option (Fib × List Fib)
  | [] => none
  | .nilF :: anc => upWalk anc
  | .nodeF _ _ .nilF :: anc => upWalk anc
  | .nodeF _ _ (.nodeF l c s) :: anc => some (.nodeF l c s, anc)

/-- The successor computed by perform_unit_of_work for the current fiber
with its ancestor stack: the first child if there is one, else the next
sibling of the nearest level (the fiber itself first) found by the upward
walk. -/
def nextUnit (cur : Fib) (anc : List Fib) : Option (Fib × List Fib) :=
  match cur with
  | .nilF => none
  | .nodeF l child sib =>
    match child with
    | .nodeF cl cc cs => some (.nodeF cl cc cs, .nodeF l child sib :: anc)
    | .nilF => upWalk (.nodeF l child sib :: anc)

/-- Number of fibers in a subtree together with its following siblings. -/
def sizeAll : Fib → Nat
  | .nilF => 0
  | .nodeF _ child sib => 1 + sizeAll child + sizeAll sib

/-- Fibers still reachable through the next siblings of a stack of
ancestors. -/
def stackSize (fs : List Fib) : Nat :=
  (fs.map (fun f => sizeAll f.sibling)).sum

/-- Pre-order, depth-first, left-to-right listing of a fiber, its subtree
and its following siblings: the fiber first, then its child chain, then its
next sibling. -/
def preorderAll : Fib → List Fib
  | .nilF => []
  | .nodeF l child sib => .nodeF l child sib :: (preorderAll child ++ preorderAll sib)

/-- Fibers still to be visited through the next siblings of an ancestor
stack, in visit order. -/
def stackSeq (fs : List Fib) : List Fib :=
  (fs.map (fun f => preorderAll f.sibling)).join

theorem upWalk_none_size (fs : List Fib) :
    upWalk fs = none → stackSize fs = 0 := by
  induction fs with
  | nil => intro _; rfl
  | cons f anc ih =>
    rcases f with _ | ⟨l, c, s⟩
    · intro h
      rw [upWalk] at h
      simpa [stackSize, Fib.sibling, sizeAll] using ih h
    · rcases s with _ | ⟨l', c', s'⟩
      · intro h
        rw [upWalk] at h
        simpa [stackSize, Fib.sibling, sizeAll] using ih h
      · intro h
        simp [upWalk] at h

theorem upWalk_some_size (fs : List Fib) (cur : Fib) (anc : List Fib) :
    upWalk fs = some (cur, anc) → sizeAll cur + stackSize anc = stackSize fs := by
  induction fs with
  | nil => intro h; simp [upWalk] at h
  | cons f rest ih =>
    rcases f with _ | ⟨l, c, s⟩
    · intro h
      rw [upWalk] at h
      simpa [stackSize, Fib.sibling, sizeAll] using ih h
    · rcases s with _ | ⟨l', c', s'⟩
      · intro h
        rw [upWalk] at h
        simpa [stackSize, Fib.sibling, sizeAll] using ih h
      · intro h
        rw [upWalk] at h
        cases h
        simp [stackSize, Fib.sibling]

theorem upWalk_none_seq (fs : List Fib) :
    upWalk fs = none → stackSeq fs = [] := by
  induction fs with
  | nil => intro _; rfl
  | cons f anc ih =>
    rcases f with _ | ⟨l, c, s⟩
    · intro h
      rw [upWalk] at h
      simpa [stackSeq, Fib.sibling, preorderAll] using ih h
    · rcases s with _ | ⟨l', c', s'⟩
      · intro h
        rw [upWalk] at h
        simpa [stackSeq, Fib.sibling, preorderAll] using ih h
      · intro h
        simp [upWalk] at h

theorem upWalk_some_seq (fs : List Fib) (cur : Fib) (anc : List Fib) :
    upWalk fs = some (cur, anc) →
      preorderAll cur ++ stackSeq anc = stackSeq fs := by
  induction fs with
  | nil => intro h; simp [upWalk] at h
  | cons f rest ih =>
    rcases f with _ | ⟨l, c, s⟩
    · intro h
      rw [upWalk] at h
      simpa [stackSeq, Fib.sibling, preorderAll] using ih h
    · rcases s with _ | ⟨l', c', s'⟩
      · intro h
        rw [upWalk] at h
        simpa [stackSeq, Fib.sibling, preorderAll] using ih h
      · intro h
        rw [upWalk] at h
        cases h
        simp [stackSeq, Fib.sibling]

theorem nextUnit_ne_nil (cur : Fib) (anc : List Fib) (cur' : Fib)
    (anc' : List Fib) : nextUnit cur anc = some (cur', anc') → cur' ≠ .nilF := by
  rcases cur with _ | ⟨l, c, s⟩
  · intro h; simp [nextUnit] at h
  · rcases c with _ | ⟨cl, cc, cs⟩
    · rw [nextUnit]
      intro h
      -- result of the upward walk: always a nodeF
      have : ∀ fs r, upWalk fs = some r → r.1 ≠ .nilF := by
        intro fs
        induction fs with
        | nil => intro r h'; simp [upWalk] at h'
        | cons f rest ih =>
          rcases f with _ | ⟨a, b, d⟩
          · intro r h'; rw [upWalk] at h'; exact ih r h'
          · rcases d with _ | ⟨a', b', d'⟩
            · intro r h'; rw [upWalk] at h'; exact ih r h'
            · intro r h'
              rw [upWalk] at h'
              cases h'
              simp
      have h2 := this _ _ h
      simpa using h2
    · rw [nextUnit]
      intro h
      cases h
      simp

theorem nextUnit_lt (cur : Fib) (anc : List Fib) (cur' : Fib) (anc' : List Fib) :
    nextUnit cur anc = some (cur', anc') →
      sizeAll cur' + stackSize anc' < sizeAll cur + stackSize anc := by
  rcases cur with _ | ⟨l, c, s⟩
  · intro h; simp [nextUnit] at h
  · rcases c with _ | ⟨cl, cc, cs⟩
    · rw [nextUnit]
      intro h
      have := upWalk_some_size _ _ _ h
      simp [stackSize, Fib.sibling, sizeAll] at this ⊢
      omega
    · rw [nextUnit]
      intro h
      cases h
      simp [stackSize, Fib.sibling, sizeAll]
      omega

/-- The sequence of fibers visited by iterating perform_unit_of_work from a
fiber (with its ancestor stack) until the successor is None. -/
def unitSeq (cur : Fib) (anc : List Fib) : List Fib :=
  cur ::
    (match h : nextUnit cur anc with
     | none => []
     | some (c, a) => unitSeq c a)
termination_by sizeAll cur + stackSize anc
decreasing_by exact nextUnit_lt _ _ _ _ h

/-- unitSeq on an optional work pointer (None visits nothing). -/
def unitSeqO : Option (Fib × List Fib) → List Fib
  | none => []
  | some (cur, anc) => unitSeq cur anc

theorem unitSeq_eq (cur : Fib) (anc : List Fib) :
    unitSeq cur anc = cur :: unitSeqO (nextUnit cur anc) := by
  rw [unitSeq]
  rcases h : nextUnit cur anc with _ | ⟨c, a⟩ <;> simp [unitSeqO, h]

theorem unitSeq_spec : ∀ n (cur : Fib) (anc : List Fib), cur ≠ .nilF →
    sizeAll cur + stackSize anc ≤ n →
    unitSeq cur anc = preorderAll cur ++ stackSeq anc := by
  intro n
  induction n with
  | zero =>
    intro cur anc hne hm
    rcases cur with _ | ⟨l, c, s⟩
    · exact absurd rfl hne
    · simp [sizeAll] at hm
  | succ n ih =>
    intro cur anc hne hm
    rcases cur with _ | ⟨l, c, s⟩
    · exact absurd rfl hne
    · rw [unitSeq_eq]
      rcases c with _ | ⟨cl, cc, cs⟩
      · -- no child: the successor comes from the upward walk
        rw [nextUnit]
        rcases hg : upWalk (.nodeF l .nilF s :: anc) with _ | ⟨c', a'⟩
        · have h0 := upWalk_none_seq _ hg
          simp [stackSeq] at h0
          have hanc : stackSeq anc = [] := by
            simp [stackSeq]
            exact h0.2
          rw [unitSeqO]
          simp [preorderAll, hanc, h0.1]
        · have hlt : sizeAll c' + stackSize a' ≤ n := by
            have := upWalk_some_size _ _ _ hg
            simp [stackSize, sizeAll] at this hm ⊢
            omega
          have hne' : c' ≠ .nilF := by
            have : ∀ fs r, upWalk fs = some r → r.1 ≠ .nilF := by
              intro fs
              induction fs with
              | nil => intro r h'; simp [upWalk] at h'
              | cons f rest ihw =>
                rcases f with _ | ⟨a, b, d⟩
                · intro r h'; rw [upWalk] at h'; exact ihw r h'
                · rcases d with _ | ⟨a', b', d'⟩
                  · intro r h'; rw [upWalk] at h'; exact ihw r h'
                  · intro r h'
                    rw [upWalk] at h'
                    cases h'
                    simp
            exact this _ (c', a') hg
          rw [unitSeqO, ih c' a' hne' hlt]
          have hseq := upWalk_some_seq _ _ _ hg
          simp [stackSeq] at hseq
          simp [preorderAll, stackSeq, hseq]
      · -- descend into the first child
        rw [nextUnit]
        have hlt : sizeAll (.nodeF cl cc cs)
            + stackSize (.nodeF l (.nodeF cl cc cs) s :: anc) ≤ n := by
          simp [sizeAll, stackSize, Fib.sibling] at hm ⊢
          omega
        rw [unitSeqO, ih _ _ (by simp) hlt]
        simp [preorderAll, stackSeq, Fib.sibling]

/-- Claim C7: iterating the unit-of-work successor from the root fiber of a
generation (no siblings, no ancestors) visits every fiber of the generation
in pre-order, depth-first, left-to-right order, ending with successor None
after the last fiber.  The successor itself is, by definition of nextUnit,
the first child when one exists and otherwise the next sibling of the
nearest ancestor (the fiber itself included) that has one. -/
theorem c7_unit_order_is_preorder (l : Nat) (child sib : Fib) :
    unitSeq (.nodeF l child sib) [] = preorderAll (.nodeF l child sib) := by
  have h := unitSeq_spec (sizeAll (.nodeF l child sib)) (.nodeF l child sib) []
    (by simp) (by simp [stackSize])
  simpa [stackSeq] using h

/-! ## The scheduler: request_idle_work and work_loop

Time is in nanoseconds (Python perf_counter_ns), modelled as Int.  A slice
of the work loop consumes one clock reading after each performed unit of
work, deciding whether to continue; the finite list of readings models the
successive values of time.perf_counter_ns(), an exhausted list standing for
a run whose next reading would miss the deadline. -/

/-- The deadline chosen by request_idle_work: the given one, or, when no
deadline is passed (or a zero deadline, which Python treats as falsy), 16
milliseconds past the current time. -/
def requestIdleWorkDeadline (deadline : Option Int) (now : Int) : Int :=
  match deadline with
  | none => now + 1000000 * 16
  | some d => if d = 0 then now + 1000000 * 16 else d

/-- The while loop of work_loop: starting from the work pointer, perform
one unit at a time (moving the pointer to its successor), then read the
clock and yield when the remaining budget is below one millisecond.
Returns the final work pointer and the fibers visited, in order.  At least
one unit is performed when work exists, since should_yield starts False. -/
def workLoopGo : Option (Fib × List Fib) → Int → List Int → Option (Fib × List Fib) × List Fib
  | none, _, _ => (none, [])
  | some (cur, anc), deadline, clocks =>
    let nxt := nextUnit cur anc
    match clocks with
    | [] => (nxt, [cur])
    | now :: rest =>
      if deadline - now < 1 * 1000000 then
        (nxt, [cur])
      else
        let r := workLoopGo nxt deadline rest
        (r.1, cur :: r.2)

/-- Whatever the slice visits, followed by what remains, is what was
remaining before the slice. -/
theorem unitSeqO_some (cur : Fib) (anc : List Fib) :
    unitSeqO (some (cur, anc)) = unitSeq cur anc := rfl

theorem workLoopGo_cons (cur : Fib) (anc : List Fib) (dl now : Int)
    (rest : List Int) :
    workLoopGo (some (cur, anc)) dl (now :: rest)
      = if dl - now < 1 * 1000000 then (nextUnit cur anc, [cur])
        else ((workLoopGo (nextUnit cur anc) dl rest).1,
              cur :: (workLoopGo (nextUnit cur anc) dl rest).2) := rfl

theorem workLoopGo_seq (clocks : List Int) :
    ∀ (w : Option (Fib × List Fib)) (deadline : Int),
      (workLoopGo w deadline clocks).2 ++ unitSeqO (workLoopGo w deadline clocks).1
        = unitSeqO w := by
  induction clocks with
  | nil =>
    intro w dl
    rcases w with _ | ⟨cur, anc⟩
    · rfl
    · show [cur] ++ unitSeqO (nextUnit cur anc) = unitSeqO (some (cur, anc))
      rw [unitSeqO_some, unitSeq_eq]
      rfl
  | cons now rest ih =>
    intro w dl
    rcases w with _ | ⟨cur, anc⟩
    · rfl
    · rw [workLoopGo_cons]
      by_cases hy : dl - now < 1 * 1000000
      · rw [if_pos hy]
        show [cur] ++ unitSeqO (nextUnit cur anc) = unitSeqO (some (cur, anc))
        rw [unitSeqO_some, unitSeq_eq]
        rfl
      · rw [if_neg hy]
        show (cur :: (workLoopGo (nextUnit cur anc) dl rest).2)
            ++ unitSeqO (workLoopGo (nextUnit cur anc) dl rest).1
            = unitSeqO (some (cur, anc))
        rw [unitSeqO_some, unitSeq_eq, List.cons_append, ih (nextUnit cur anc) dl]

/-! ## The engine state machine for render requests and work-loop slices

The mutable engine state of the source (next_unit_of_work, wip_root,
current_root) with a ghost log of the units performed on the current
work-in-progress generation.  A render request (either a render call or a
hook watcher firing) replaces the work-in-progress root and points the
work pointer at it; a slice runs work_loop with a deadline and a list of
clock readings, and commits exactly when no unit of work remains and a
work-in-progress root exists, as in the source guard. -/

structure EngineState where
  nuow : Option (Fib × List Fib)
  wip : Option Fib
  cur : Option Fib
  visited : List Fib
deriving DecidableEq, Repr

inductive Event where
  | render (t : Fib)
  | slice (deadline : Int) (clocks : List Int)
deriving DecidableEq, Repr

/-- A record of one commit: the generation that became current and the
units of work that had been performed on it since its render request. -/
structure CommitRec where
  tree : Fib
  visitedLog : List Fib
deriving DecidableEq, Repr

def initState : EngineState :=
  ⟨none, none, none, []⟩

/-- One engine step.  A render request stores the new work-in-progress root
and sets the work pointer to it (the root fiber of a render request always
exists, so a nilF render is ignored); a slice runs the work loop and, only
when the work pointer has become None and a work-in-progress root exists,
commits it (it becomes current, the work-in-progress root is cleared). -/
def stepEv (s : EngineState) : Event → EngineState × Option CommitRec
  | .render t =>
    match t with
    | .nilF => (s, none)
    | .nodeF l c sib =>
      (⟨some (.nodeF l c sib, []), some (.nodeF l c sib), s.cur, []⟩, none)
  | .slice deadline clocks =>
    let r := workLoopGo s.nuow deadline clocks
    match r.1, s.wip with
    | none, some t =>
      -- not self.next_unit_of_work and self.wip_root: commit_root()
      (⟨none, none, some t, s.visited ++ r.2⟩, some ⟨t, s.visited ++ r.2⟩)
    | _, _ =>
      ({ s with nuow := r.1, visited := s.visited ++ r.2 }, none)

/-- Run a list of events from a state, collecting the commits in order. -/
def runEvents : EngineState → List Event → EngineState × List CommitRec
  | s, [] => (s, [])
  | s, e :: es =>
    let r := stepEv s e
    let rest := runEvents r.1 es
    (rest.1, (match r.2 with | some c => [c] | none => []) ++ rest.2)

/-- The scheduler invariant: whenever a work-in-progress root exists, the
units performed on it so far followed by the units still to be visited
from the work pointer are exactly the pre-order of the generation. -/
def EngineInv (s : EngineState) : Prop :=
  ∀ t, s.wip = some t → s.visited ++ unitSeqO s.nuow = preorderAll t

theorem stepEv_inv (s : EngineState) (e : Event) :
    EngineInv s →
      EngineInv (stepEv s e).1 ∧
      (∀ c, (stepEv s e).2 = some c → c.visitedLog = preorderAll c.tree) := by
  intro hinv
  rcases e with t | ⟨deadline, clocks⟩
  · rcases t with _ | ⟨l, c, sib⟩
    · exact ⟨hinv, fun c h => Option.noConfusion h⟩
    · constructor
      · intro t ht
        have ht' : Fib.nodeF l c sib = t := Option.some.inj ht
        subst ht'
        show ([] : List Fib) ++ unitSeqO (some (Fib.nodeF l c sib, []))
            = preorderAll (.nodeF l c sib)
        rw [List.nil_append, unitSeqO_some]
        have h := unitSeq_spec (sizeAll (.nodeF l c sib)) (.nodeF l c sib) []
          (by simp) (by simp [stackSize])
        simpa [stackSeq] using h
      · intro c' h
        exact Option.noConfusion h
  · have hseq := workLoopGo_seq clocks s.nuow deadline
    simp only [stepEv]
    split
    · rename_i t0 hfin hwip
      constructor
      · intro t' ht'
        exact Option.noConfusion ht'
      · intro c hc
        have hc' : (⟨t0, s.visited ++ (workLoopGo s.nuow deadline clocks).2⟩
            : CommitRec) = c := Option.some.inj hc
        subst hc'
        show s.visited ++ (workLoopGo s.nuow deadline clocks).2 = preorderAll t0
        rw [hfin] at hseq
        rw [show unitSeqO none = [] from rfl, List.append_nil] at hseq
        rw [hseq]
        exact hinv t0 hwip
    · rename_i hne
      constructor
      · intro t' ht'
        have hwip : s.wip = some t' := ht'
        show (s.visited ++ (workLoopGo s.nuow deadline clocks).2)
            ++ unitSeqO (workLoopGo s.nuow deadline clocks).1 = preorderAll t'
        rw [List.append_assoc, hseq]
        exact hinv t' hwip
      · intro c hc
        exact Option.noConfusion hc

theorem runEvents_commits (evs : List Event) :
    ∀ s, EngineInv s →
      ∀ c ∈ (runEvents s evs).2, c.visitedLog = preorderAll c.tree := by
  induction evs with
  | nil =>
    intro s _ c hc
    simp [runEvents] at hc
  | cons e es ih =>
    intro s hs c hc
    obtain ⟨h1, h2⟩ := stepEv_inv s e hs
    simp only [runEvents] at hc
    rcases List.mem_append.mp hc with hc1 | hc2
    · rcases hopt : (stepEv s e).2 with _ | c0
      · rw [hopt] at hc1
        simp at hc1
      · rw [hopt] at hc1
        simp at hc1
        subst hc1
        exact h2 c hopt
    · exact ih (stepEv s e).1 h1 c hc2

/-- Claim C5: over every interleaving of render requests and work-loop
slices (with arbitrary deadlines and clock readings), a generation is
committed only when the work pointer has become None — the commit branch of
work_loop is guarded by exactly that test — and at that moment the units of
work performed on the committed generation since its render request are
precisely its full pre-order traversal: a partially built generation is
never committed. -/
theorem c5_commit_only_after_full_traversal (evs : List Event) (c : CommitRec) :
    c ∈ (runEvents initState evs).2 → c.visitedLog = preorderAll c.tree :=
  fun hc =>
    runEvents_commits evs initState (fun _ ht => Option.noConfusion ht) c hc

/-- Witness for claim C5: a render of a single-fiber generation followed by
one slice commits it, with the visited log equal to its pre-order. -/
theorem c5_witness :
    (⟨.nodeF 0 .nilF .nilF, [.nodeF 0 .nilF .nilF]⟩ : CommitRec)
        ∈ (runEvents initState
            [.render (.nodeF 0 .nilF .nilF), .slice 0 []]).2 ∧
    ([Fib.nodeF 0 .nilF .nilF] : List Fib)
        = preorderAll (.nodeF 0 .nilF .nilF) :=
  ⟨by decide,
   c5_commit_only_after_full_traversal
     [.render (.nodeF 0 .nilF .nilF), .slice 0 []]
     ⟨.nodeF 0 .nilF .nilF, [.nodeF 0 .nilF .nilF]⟩ (by decide)⟩

/-! ## Claim C8 — deadline checks, yield threshold, default slice -/

theorem workLoopGo_len_one (clocks : List Int) :
    ∀ (cur : Fib) (anc : List Fib) (dl : Int),
      1 ≤ (workLoopGo (some (cur, anc)) dl clocks).2.length := by
  rcases clocks with _ | ⟨now, rest⟩ <;> intro cur anc dl
  · simp [workLoopGo]
  · rw [workLoopGo_cons]
    by_cases hy : dl - now < 1 * 1000000
    · rw [if_pos hy]; simp
    · rw [if_neg hy]; simp

theorem workLoopGo_checks (clocks : List Int) :
    ∀ (w : Option (Fib × List Fib)) (dl : Int) (i : Nat),
      i + 1 < (workLoopGo w dl clocks).2.length →
      ∃ c, clocks.get? i = some c ∧ ¬(dl - c < 1 * 1000000) := by
  induction clocks with
  | nil =>
    intro w dl i hi
    rcases w with _ | ⟨cur, anc⟩
    · simp [workLoopGo] at hi
    · rw [show workLoopGo (some (cur, anc)) dl []
          = (nextUnit cur anc, [cur]) from rfl] at hi
      simp at hi
  | cons now rest ih =>
    intro w dl i hi
    rcases w with _ | ⟨cur, anc⟩
    · simp [workLoopGo] at hi
    · rw [workLoopGo_cons] at hi
      by_cases hy : dl - now < 1 * 1000000
      · rw [if_pos hy] at hi
        simp at hi
      · rw [if_neg hy] at hi
        simp at hi
        rcases i with _ | j
        · exact ⟨now, rfl, hy⟩
        · have hj : j + 1 < (workLoopGo (nextUnit cur anc) dl rest).2.length := by
            omega
          obtain ⟨c, hc1, hc2⟩ := ih (nextUnit cur anc) dl j hj
          exact ⟨c, hc1, hc2⟩

theorem workLoopGo_yield (clocks : List Int) :
    ∀ (w : Option (Fib × List Fib)) (dl : Int),
      (workLoopGo w dl clocks).1 ≠ none →
      clocks.length < (workLoopGo w dl clocks).2.length ∨
      ∃ c, clocks.get? ((workLoopGo w dl clocks).2.length - 1) = some c ∧
        dl - c < 1 * 1000000 := by
  induction clocks with
  | nil =>
    intro w dl hne
    rcases w with _ | ⟨cur, anc⟩
    · exact absurd rfl hne
    · left
      rw [show workLoopGo (some (cur, anc)) dl []
          = (nextUnit cur anc, [cur]) from rfl]
      simp
  | cons now rest ih =>
    intro w dl hne
    rcases w with _ | ⟨cur, anc⟩
    · exact absurd rfl hne
    · rw [workLoopGo_cons] at hne ⊢
      by_cases hy : dl - now < 1 * 1000000
      · rw [if_pos hy]
        right
        exact ⟨now, rfl, hy⟩
      · rw [if_neg hy] at hne ⊢
        have hne' : (workLoopGo (nextUnit cur anc) dl rest).1 ≠ none := hne
        have hpos : 1 ≤ (workLoopGo (nextUnit cur anc) dl rest).2.length := by
          rcases hwn : nextUnit cur anc with _ | w'
          · exfalso
            apply hne'
            rw [hwn, workLoopGo]
          · exact workLoopGo_len_one rest w'.1 w'.2 dl
        rcases ih (nextUnit cur anc) dl hne' with hl | ⟨c, hc1, hc2⟩
        · left
          show (now :: rest).length
              < (cur :: (workLoopGo (nextUnit cur anc) dl rest).2).length
          simp only [List.length_cons]
          omega
        · right
          refine ⟨c, ?_, hc2⟩
          show (now :: rest).get?
              ((cur :: (workLoopGo (nextUnit cur anc) dl rest).2).length - 1)
            = some c
          have h1 : (cur :: (workLoopGo (nextUnit cur anc) dl rest).2).length - 1
              = ((workLoopGo (nextUnit cur anc) dl rest).2.length - 1) + 1 := by
            simp only [List.length_cons]
            omega
          rw [h1]
          simpa using hc1

/-- Claim C8: the work loop performs at least one unit when work exists and
visits consecutive units (second conjunct: what a slice visits followed by
what remains is the pending traversal — the clock is consulted only at unit
boundaries, never inside a unit); every unit except the last is followed by
a deadline check that passed (third conjunct), and when the slice ends with
work remaining, the check after its last unit found the remaining budget
below 1 millisecond — 1 * 1000000 nanoseconds — (or the reading list was
exhausted, the model of a run whose next reading misses the deadline)
(fourth conjunct), upon which work_loop reschedules itself through
request_idle_work; a render request without an explicit deadline gets one
16 milliseconds past the current time (fifth conjunct). -/
theorem c8_workloop_deadline_behavior (cur : Fib) (anc : List Fib)
    (deadline : Int) (clocks : List Int) :
    1 ≤ (workLoopGo (some (cur, anc)) deadline clocks).2.length ∧
    ((workLoopGo (some (cur, anc)) deadline clocks).2
        ++ unitSeqO (workLoopGo (some (cur, anc)) deadline clocks).1
      = unitSeq cur anc) ∧
    (∀ i, i + 1 < (workLoopGo (some (cur, anc)) deadline clocks).2.length →
      ∃ c, clocks.get? i = some c ∧ ¬(deadline - c < 1 * 1000000)) ∧
    ((workLoopGo (some (cur, anc)) deadline clocks).1 ≠ none →
      clocks.length < (workLoopGo (some (cur, anc)) deadline clocks).2.length ∨
      ∃ c, clocks.get? ((workLoopGo (some (cur, anc)) deadline clocks).2.length - 1)
          = some c ∧ deadline - c < 1 * 1000000) ∧
    (∀ now, requestIdleWorkDeadline none now = now + 1000000 * 16) :=
  ⟨workLoopGo_len_one clocks cur anc deadline,
   by rw [← unitSeqO_some cur anc]
      exact workLoopGo_seq clocks (some (cur, anc)) deadline,
   fun i => workLoopGo_checks clocks (some (cur, anc)) deadline i,
   workLoopGo_yield clocks (some (cur, anc)) deadline,
   fun _ => rfl⟩

/-- Witness for claim C8: a two-fiber generation with a 2 ms deadline and a
clock reading 1.5 ms in: one unit is performed, the check fails (budget
0.5 ms below the 1 ms threshold) and the slice yields with work left. -/
theorem c8_witness :
    (workLoopGo (some (.nodeF 0 (.nodeF 1 .nilF .nilF) .nilF, []))
        2000000 [1500000]).1 ≠ none ∧
    (([1500000] : List Int).length
        < (workLoopGo (some (.nodeF 0 (.nodeF 1 .nilF .nilF) .nilF, []))
            2000000 [1500000]).2.length ∨
      ∃ c, ([1500000] : List Int).get?
            ((workLoopGo (some (.nodeF 0 (.nodeF 1 .nilF .nilF) .nilF, []))
              2000000 [1500000]).2.length - 1) = some c ∧
          (2000000 : Int) - c < 1 * 1000000) :=
  ⟨by decide,
   (c8_workloop_deadline_behavior (.nodeF 0 (.nodeF 1 .nilF .nilF) .nilF) []
      2000000 [1500000]).2.2.2.1 (by decide)⟩

/-! ## commit_root, commit_work, commit_deletion

Commit-phase fibers are linked as in the source: first-child and
next-sibling pointers (nilC for None), a host node (dom), an effect tag,
the new props and the alternate props (read by update_dom for an Update
fiber), and the watcher ids of the hooks the fiber owns.  The source finds
the host parent of a fiber by walking parent pointers to the nearest
ancestor owning a dom; the embedding passes that ancestor dom downward
(for the deletion list, whose fibers sit in the old tree, the host parent
is supplied alongside each fiber).  The emitted renderer calls are listed
in order; the alphabet includes the watcher-cancellation call of the
reactive interface, which the commit phase of the source never issues. -/

inductive CFiber where
  | nilC : CFiber
  | mk (dom : Option Nat) (effect : Option EffectTag)
       (prevProps props : PropMap) (hooks : List Nat)
       (child sibling : CFiber) : CFiber
deriving DecidableEq, Repr

def CFiber.effect : CFiber → Option EffectTag
  | .nilC => none
  | .mk _ e _ _ _ _ _ => e

def CFiber.dom : CFiber → Option Nat
  | .nilC => none
  | .mk d _ _ _ _ _ _ => d

/-- One host-tree call issued during commit, in issue order. -/
inductive HostOp where
  | add (child parent : Nat)
  | remove (child parent : Nat)
  | update (dom : Nat) (prev next : PropMap)
  | cancelWatcher (w : Nat)
deriving DecidableEq, Repr

/-- commit_deletion(fiber, dom_parent): remove the fiber dom from the host
parent; a fiber without its own dom recurses into its first child.  (On a
fiber with neither dom nor child the source raises; the embedding returns
no call there.) -/
def commitDeletion (p : Nat) : CFiber → List HostOp
  | .nilC => []
  | .mk (some d) _ _ _ _ _ _ => [.remove d p]
  | .mk none _ _ _ _ child _ => commitDeletion p child

/-- The deepest-available host node under a fiber, found through first
children — the node commit_deletion removes. -/
def deletionDom : CFiber → Option Nat
  | .nilC => none
  | .mk (some d) _ _ _ _ _ _ => some d
  | .mk none _ _ _ _ child _ => deletionDom child

/-- commit_work(fiber) with the nearest ancestor host node p: apply the
fiber effect (Placement with a dom: add under p; Update with a dom:
update_dom against the alternate props; Deletion: commit_deletion), then
recurse into the child (whose host parent is this fiber dom if any, else
p), then into the sibling (host parent p, as both share their parent). -/
def commitWork (p : Nat) : CFiber → List HostOp
  | .nilC => []
  | .mk dom effect prevProps props hooks child sibling =>
    (match effect, dom with
     | some .PLACEMENT, some d => [.add d p]
     | some .UPDATE, some d => [.update d prevProps props]
     | some .DELETION, _ =>
       commitDeletion p (.mk dom effect prevProps props hooks child sibling)
     | _, _ => [])
    ++ commitWork (match dom with | some d => d | none => p) child
    ++ commitWork p sibling

/-- commit_root: commit every fiber of the deletion list (each with the
host parent found through its old-tree parent chain), then commit the tree
under the work-in-progress root (whose container dom is rootDom). -/
def commitRoot (deletions : List (Nat × CFiber)) (rootDom : Nat)
    (child : CFiber) : List HostOp :=
  (deletions.map (fun pf => commitWork pf.1 pf.2)).join
    ++ commitWork rootDom child

theorem commitDeletion_of_dom (f : CFiber) :
    ∀ p d, deletionDom f = some d → commitDeletion p f = [.remove d p] := by
  induction f with
  | nilC => intro p d h; simp [deletionDom] at h
  | mk dom effect prevProps props hooks child sibling ihc ihs =>
    intro p d h
    rcases dom with _ | d'
    · rw [deletionDom] at h
      rw [commitDeletion]
      exact ihc p d h
    · rw [deletionDom] at h
      cases h
      rfl

theorem remove_mem_commitWork (f : CFiber) (p d : Nat)
    (he : f.effect = some EffectTag.DELETION) (hd : deletionDom f = some d) :
    HostOp.remove d p ∈ commitWork p f := by
  rcases f with _ | ⟨dom, effect, prevProps, props, hooks, child, sibling⟩
  · simp [deletionDom] at hd
  · rw [CFiber.effect] at he
    subst he
    rcases dom with _ | d'
    · rw [show commitWork p
            (.mk none (some .DELETION) prevProps props hooks child sibling)
          = commitDeletion p
              (.mk none (some .DELETION) prevProps props hooks child sibling)
            ++ commitWork p child ++ commitWork p sibling from rfl]
      rw [commitDeletion_of_dom _ _ _ hd]
      simp
    · rw [deletionDom] at hd
      injection hd with hd'
      subst hd'
      rw [show commitWork p
            (.mk (some d') (some .DELETION) prevProps props hooks child sibling)
          = commitDeletion p
              (.mk (some d') (some .DELETION) prevProps props hooks child sibling)
            ++ commitWork d' child ++ commitWork p sibling from rfl]
      rw [show commitDeletion p
            (.mk (some d') (some EffectTag.DELETION) prevProps props hooks child sibling)
          = [HostOp.remove d' p] from rfl]
      simp

/-- Claim C6: within one commit, the host-node removal of every fiber of
the deletion list (with a reachable host node) occurs at a position inside
the deletion phase — the prefix of the commit sequence of length equal to
the concatenated deletion-list calls — while every call produced by walking
the new generation sits after that whole prefix.  A removal of the deletion
phase therefore precedes every Placement insertion and every Update applied
to the new generation in the same commit. -/
theorem c6_deletions_committed_first (dels : List (Nat × CFiber)) (rootDom : Nat)
    (child : CFiber) (p : Nat) (f : CFiber) (d : Nat)
    (hmem : (p, f) ∈ dels) (he : f.effect = some EffectTag.DELETION)
    (hd : deletionDom f = some d) :
    (∃ i, i < ((dels.map (fun pf => commitWork pf.1 pf.2)).join).length ∧
      (commitRoot dels rootDom child).get? i = some (HostOp.remove d p)) ∧
    (∀ j op, (commitWork rootDom child).get? j = some op →
      (commitRoot dels rootDom child).get?
        (((dels.map (fun pf => commitWork pf.1 pf.2)).join).length + j)
          = some op) := by
  constructor
  · have hm : HostOp.remove d p ∈ (dels.map (fun pf => commitWork pf.1 pf.2)).join := by
      apply List.mem_join.mpr
      exact ⟨commitWork p f, List.mem_map_of_mem _ hmem,
        remove_mem_commitWork f p d he hd⟩
    obtain ⟨i, hi⟩ := List.mem_iff_get?.mp hm
    have hlt : i < ((dels.map (fun pf => commitWork pf.1 pf.2)).join).length := by
      obtain ⟨hb, _⟩ := List.get?_eq_some.mp hi
      exact hb
    refine ⟨i, hlt, ?_⟩
    rw [show commitRoot dels rootDom child
        = (dels.map (fun pf => commitWork pf.1 pf.2)).join
          ++ commitWork rootDom child from rfl]
    rw [List.get?_append hlt]
    exact hi
  · intro j op hop
    rw [show commitRoot dels rootDom child
        = (dels.map (fun pf => commitWork pf.1 pf.2)).join
          ++ commitWork rootDom child from rfl]
    rw [List.get?_append_right (by omega)]
    rw [show ((dels.map (fun pf => commitWork pf.1 pf.2)).join).length + j
          - ((dels.map (fun pf => commitWork pf.1 pf.2)).join).length = j from by omega]
    exact hop

/-- Witness for claim C6: one deleted fiber with host node 5 under host
parent 7 and a new generation placing host node 2 under the container 1:
the removal sits in the deletion phase and the placement after it. -/
theorem c6_witness :
    ((∃ i, i < (([(7, CFiber.mk (some 5) (some .DELETION) [] [] [0] .nilC .nilC)]
          |>.map (fun pf => commitWork pf.1 pf.2)).join).length ∧
      (commitRoot [(7, .mk (some 5) (some .DELETION) [] [] [0] .nilC .nilC)] 1
          (.mk (some 2) (some .PLACEMENT) [] [] [] .nilC .nilC)).get? i
        = some (HostOp.remove 5 7)) ∧
    (∀ j op,
      (commitWork 1 (.mk (some 2) (some .PLACEMENT) [] [] [] .nilC .nilC)).get? j
          = some op →
      (commitRoot [(7, .mk (some 5) (some .DELETION) [] [] [0] .nilC .nilC)] 1
          (.mk (some 2) (some .PLACEMENT) [] [] [] .nilC .nilC)).get?
        ((([(7, CFiber.mk (some 5) (some .DELETION) [] [] [0] .nilC .nilC)]
          |>.map (fun pf => commitWork pf.1 pf.2)).join).length + j) = some op)) :=
  c6_deletions_committed_first
    [(7, .mk (some 5) (some .DELETION) [] [] [0] .nilC .nilC)] 1
    (.mk (some 2) (some .PLACEMENT) [] [] [] .nilC .nilC)
    7 (.mk (some 5) (some .DELETION) [] [] [0] .nilC .nilC) 5
    (by decide) (by decide) (by decide)

/-! ## use_state

A hook holds its state, the queue of pending update functions, and the
watcher registered on it.  use_state reads the alternate hooks through the
source truthiness chain (a missing alternate, a missing hooks entry and an
empty hooks list all yield no old hook; a non-empty list is indexed at the
cursor, raising IndexError when the cursor is out of range), builds the new
hook from the old state with every queued update applied in order (the
reactive wrapper around the initial value is the identity for the model),
registers exactly one watcher — its id wid is supplied fresh by the caller
— appends the hook, and advances the cursor by one.  The error of the
out-of-range index happens before the watcher is registered and before the
cursor moves. -/

structure HookS (α : Type) where
  state : α
  queue : List (α → α)
  watcher : Nat

/-- What one use_state call produces: the returned value, the hook appended
to the fiber, the advanced cursor, and the watcher ids registered during
the call. -/
structure UseStateOut (α : Type) where
  value : α
  hook : HookS α
  nextIndex : Nat
  watchersCreated : List Nat

def useState {α : Type} (altHooks : Option (List (HookS α)))
    (hookIndex : Nat) (wid : Nat) (initial : α) :
    Except String (UseStateOut α) :=
  match altHooks with
  | none =>
    -- no alternate (or no hooks entry): seed from the initial value
    .ok ⟨initial, ⟨initial, [], wid⟩, hookIndex + 1, [wid]⟩
  | some [] =>
    -- an empty hooks list is falsy: seed from the initial value
    .ok ⟨initial, ⟨initial, [], wid⟩, hookIndex + 1, [wid]⟩
  | some (h0 :: hs) =>
    -- a non-empty hooks list is indexed at the cursor
    match (h0 :: hs).get? hookIndex with
    | some oldHook =>
      let st := oldHook.queue.foldl (fun s a => a s) oldHook.state
      .ok ⟨st, ⟨st, [], wid⟩, hookIndex + 1, [wid]⟩
    | none => .error "IndexError"

/-- Claim C9 counterexample: with an alternate carrying one hook and the
cursor at 1, the source raises IndexError instead of seeding from the
initial value as the claim requires: no successful result exists. -/
theorem c9_out_of_range_hook_raises :
    useState (α := Int) (some [⟨3, [], 0⟩]) 1 7 5 = Except.error "IndexError" ∧
    ∀ out, useState (α := Int) (some [⟨3, [], 0⟩]) 1 7 5 ≠ Except.ok out := by
  constructor
  · rfl
  · intro out h
    rw [show useState (α := Int) (some [⟨3, [], 0⟩]) 1 7 5
        = Except.error "IndexError" from rfl] at h
    exact Except.noConfusion h

/-- Claim C9 (amended): when the alternate hook list has an entry at the
cursor, use_state returns that hook state with every queued update applied
in order — the caller initial value is ignored — and the cursor advances by
one; when there is no alternate hook list or it is empty, the value is
seeded from the initial value and the cursor advances by one; when the
alternate hook list is non-empty but has no entry at the cursor, an
IndexError is raised (nothing is returned and the cursor does not
advance). -/
theorem c9_use_state_semantics {α : Type} (altHooks : Option (List (HookS α)))
    (hookIndex wid : Nat) (initial : α) :
    (∀ hooks oldHook, altHooks = some hooks →
      hooks.get? hookIndex = some oldHook →
      useState altHooks hookIndex wid initial
        = .ok ⟨oldHook.queue.foldl (fun s a => a s) oldHook.state,
               ⟨oldHook.queue.foldl (fun s a => a s) oldHook.state, [], wid⟩,
               hookIndex + 1, [wid]⟩) ∧
    ((altHooks = none ∨ altHooks = some []) →
      useState altHooks hookIndex wid initial
        = .ok ⟨initial, ⟨initial, [], wid⟩, hookIndex + 1, [wid]⟩) ∧
    (∀ hooks, altHooks = some hooks → hooks ≠ [] →
      hooks.get? hookIndex = none →
      useState altHooks hookIndex wid initial = .error "IndexError") := by
  refine ⟨?_, ?_, ?_⟩
  · intro hooks oldHook h1 h2
    subst h1
    rcases hooks with _ | ⟨h0, hs⟩
    · simp at h2
    · rw [useState, h2]
  · intro h
    rcases h with rfl | rfl <;> rfl
  · intro hooks h1 hne h3
    subst h1
    rcases hooks with _ | ⟨h0, hs⟩
    · exact absurd rfl hne
    · rw [useState, h3]

/-- Witness for claim C9: an alternate hook with state 3 and one queued
increment yields 4 (the initial value 100 is ignored) and cursor 1. -/
theorem c9_witness :
    useState (α := Int) (some [⟨3, [fun s => s + 1], 9⟩]) 0 9 100
      = Except.ok ⟨4, ⟨4, [], 9⟩, 1, [9]⟩ :=
  (c9_use_state_semantics (α := Int) (some [⟨3, [fun s => s + 1], 9⟩]) 0 9
    100).1 [⟨3, [fun s => s + 1], 9⟩] ⟨3, [fun s => s + 1], 9⟩ rfl rfl

/-! ## Claim C3 — one watcher per hook; no cancellation on deletion

use_state registers exactly one watcher per created hook; the source never
cancels a watcher anywhere in the commit phase: commit_deletion only
removes the host node, so the subscription of a deleted fiber survives. -/

theorem commitDeletion_no_cancel (f : CFiber) :
    ∀ p op, op ∈ commitDeletion p f → ∀ w, op ≠ HostOp.cancelWatcher w := by
  induction f with
  | nilC => intro p op h; simp [commitDeletion] at h
  | mk dom effect prevProps props hooks child sibling ihc ihs =>
    intro p op h w
    rcases dom with _ | d
    · rw [commitDeletion] at h
      exact ihc p op h w
    · rw [commitDeletion] at h
      simp at h
      subst h
      simp

theorem commitWork_mk (p : Nat) (dom : Option Nat) (effect : Option EffectTag)
    (prevProps props : PropMap) (hooks : List Nat) (child sibling : CFiber) :
    commitWork p (.mk dom effect prevProps props hooks child sibling)
      = (match effect, dom with
         | some .PLACEMENT, some d => [HostOp.add d p]
         | some .UPDATE, some d => [HostOp.update d prevProps props]
         | some .DELETION, _ =>
           commitDeletion p (.mk dom effect prevProps props hooks child sibling)
         | _, _ => [])
        ++ commitWork (match dom with | some d => d | none => p) child
        ++ commitWork p sibling := by
  cases effect with
  | none => cases dom <;> rfl
  | some e => cases e <;> cases dom <;> rfl

theorem commitWork_no_cancel (f : CFiber) :
    ∀ p op, op ∈ commitWork p f → ∀ w, op ≠ HostOp.cancelWatcher w := by
  induction f with
  | nilC => intro p op h; simp [commitWork] at h
  | mk dom effect prevProps props hooks child sibling ihc ihs =>
    intro p op h w
    rw [commitWork_mk] at h
    rcases List.mem_append.mp h with h1 | h2
    · rcases List.mem_append.mp h1 with h0 | hc
      · rcases effect with _ | e
        · simp at h0
        · rcases e with _ | _ | _
          · -- UPDATE
            rcases dom with _ | d <;> simp at h0
            subst h0
            simp
          · -- PLACEMENT
            rcases dom with _ | d <;> simp at h0
            subst h0
            simp
          · -- DELETION
            exact commitDeletion_no_cancel _ p op h0 w
      · exact ihc _ op hc w
    · exact ihs p op h2 w

/-- Claim C3 counterexample: committing the deletion of a fiber owning a
hook with watcher 0 issues only the host-node removal; no
watcher-cancellation call is ever made, contradicting the claim that the
subscription of a deleted fiber is cancelled. -/
theorem c3_deletion_does_not_cancel_watcher :
    commitRoot [(7, .mk (some 5) (some .DELETION) [] [] [0] .nilC .nilC)] 99 .nilC
      = [HostOp.remove 5 7] ∧
    HostOp.cancelWatcher 0
      ∉ commitRoot [(7, .mk (some 5) (some .DELETION) [] [] [0] .nilC .nilC)]
          99 .nilC := by
  constructor
  · rfl
  · decide

/-- Claim C3 (amended): every successful use_state call registers exactly
one watcher subscription, the one its new hook carries; but when the fiber
owning the hook is deleted and committed, that subscription is not
cancelled — no commit ever issues a cancellation call. -/
theorem c3_one_watcher_no_cancellation :
    (∀ (α : Type) (altHooks : Option (List (HookS α)))
        (hookIndex wid : Nat) (initial : α) out,
      useState altHooks hookIndex wid initial = .ok out →
        out.watchersCreated = [wid] ∧ out.hook.watcher = wid) ∧
    (∀ dels rootDom child op, op ∈ commitRoot dels rootDom child →
      ∀ w, op ≠ HostOp.cancelWatcher w) := by
  constructor
  · intro α altHooks hookIndex wid initial out h
    rcases altHooks with _ | hooks
    · rw [useState] at h
      injection h with h'
      subst h'
      exact ⟨rfl, rfl⟩
    · rcases hooks with _ | ⟨h0, hs⟩
      · rw [useState] at h
        injection h with h'
        subst h'
        exact ⟨rfl, rfl⟩
      · rw [useState] at h
        rcases hg : (h0 :: hs).get? hookIndex with _ | oldHook
        · rw [hg] at h
          exact Except.noConfusion h
        · rw [hg] at h
          injection h with h'
          subst h'
          exact ⟨rfl, rfl⟩
  · intro dels rootDom child op h w
    rcases List.mem_append.mp h with h1 | h2
    · obtain ⟨l, hl, hop⟩ := List.mem_join.mp h1
      obtain ⟨pf, _, hpf⟩ := List.mem_map.mp hl
      subst hpf
      exact commitWork_no_cancel pf.2 pf.1 op hop w
    · exact commitWork_no_cancel child rootDom op h2 w

/-- Witness for claim C3: a fresh hook created with watcher id 4 carries
exactly that one subscription, and a concrete committed placement call is
not a cancellation. -/
theorem c3_witness :
    ((⟨11, ⟨11, [], 4⟩, 1, [4]⟩ : UseStateOut Int).watchersCreated = [4] ∧
      (⟨11, ⟨11, [], 4⟩, 1, [4]⟩ : UseStateOut Int).hook.watcher = 4) ∧
    HostOp.add 2 1 ≠ HostOp.cancelWatcher 3 :=
  ⟨c3_one_watcher_no_cancellation.1 Int none 0 4 11 ⟨11, ⟨11, [], 4⟩, 1, [4]⟩ rfl,
   c3_one_watcher_no_cancellation.2 [] 1
     (.mk (some 2) (some .PLACEMENT) [] [] [] .nilC .nilC)
     (HostOp.add 2 1) (by decide) 3⟩

/-! ## Claim C4 — type identity decides update versus replace -/

theorem reconcileChildren_cons (o : OldFiber) (os : List OldFiber)
    (e : VNode) (es : List VNode) :
    reconcileChildren (o :: os) (e :: es)
      = if e.type = o.ty then
          ({ ty := o.ty, props := e.props, childrenDesc := e.children,
             dom := o.dom, alternate := some o,
             effect := EffectTag.UPDATE } :: (reconcileChildren os es).1,
           (reconcileChildren os es).2)
        else
          ({ ty := e.type, props := e.props, childrenDesc := e.children,
             dom := none, alternate := none,
             effect := EffectTag.PLACEMENT } :: (reconcileChildren os es).1,
           { o with effect := some EffectTag.DELETION }
             :: (reconcileChildren os es).2) := rfl

/-- Claim C4: for every pair of an old fiber and a new virtual node
considered (positionally) by the reconciler: identical types produce an
Update fiber reusing the old fiber host node and linking the old fiber as
alternate; differing types never produce an Update — the new node becomes a
Placement fiber with no host node and no alternate (hence no carried-over
hooks, which are only reachable through the alternate), and the old fiber,
tagged Deletion, is appended to the deletion list.  Since the virtual node
key is universally quantified and never inspected, this holds even when the
key matches. -/
theorem c4_type_decides_update_or_replace :
    ∀ (i : Nat) (olds : List OldFiber) (els : List VNode)
      (old : OldFiber) (el : VNode),
      olds.get? i = some old → els.get? i = some el →
      (el.type = old.ty →
        (reconcileChildren olds els).1.get? i
          = some { ty := old.ty, props := el.props, childrenDesc := el.children,
                   dom := old.dom, alternate := some old,
                   effect := EffectTag.UPDATE }) ∧
      (el.type ≠ old.ty →
        (reconcileChildren olds els).1.get? i
          = some { ty := el.type, props := el.props, childrenDesc := el.children,
                   dom := none, alternate := none,
                   effect := EffectTag.PLACEMENT } ∧
        { old with effect := some EffectTag.DELETION }
          ∈ (reconcileChildren olds els).2) := by
  intro i
  induction i with
  | zero =>
    intro olds els old el ho he
    rcases olds with _ | ⟨o, os⟩
    · simp at ho
    · rcases els with _ | ⟨e, es⟩
      · simp at he
      · simp at ho he
        subst ho
        subst he
        constructor
        · intro hty
          rw [reconcileChildren_cons, if_pos hty]
          rfl
        · intro hty
          rw [reconcileChildren_cons, if_neg hty]
          exact ⟨rfl, List.mem_cons_self _ _⟩
  | succ j ih =>
    intro olds els old el ho he
    rcases olds with _ | ⟨o, os⟩
    · simp at ho
    · rcases els with _ | ⟨e, es⟩
      · simp at he
      · rw [List.get?_cons_succ] at ho he
        have hih := ih os es old el ho he
        constructor
        · intro hty
          have h1 := hih.1 hty
          rw [reconcileChildren_cons]
          by_cases hoe : e.type = o.ty
          · rw [if_pos hoe]
            simpa using h1
          · rw [if_neg hoe]
            simpa using h1
        · intro hty
          obtain ⟨h1, h2⟩ := hih.2 hty
          rw [reconcileChildren_cons]
          by_cases hoe : e.type = o.ty
          · rw [if_pos hoe]
            exact ⟨by simpa using h1, h2⟩
          · rw [if_neg hoe]
            exact ⟨by simpa using h1, List.mem_cons_of_mem _ h2⟩

/-- Witness for claim C4: at position 1 the tag changes from b to c with
the key kept equal, producing the Placement fiber and the Deletion entry. -/
theorem c4_witness :
    ((reconcileChildren
        [ { ty := .host "a", props := [], childrenDesc := [],
            dom := some 3, effect := none },
          { ty := .host "b", props := [], childrenDesc := [],
            dom := some 4, effect := none } ]
        [ VNode.mk (.host "a") [] [] none,
          VNode.mk (.host "c") [] [] (some "b") ]).1.get? 1
      = some { ty := .host "c", props := [], childrenDesc := [],
               dom := none, alternate := none,
               effect := EffectTag.PLACEMENT }) ∧
    ({ ty := FType.host "b", props := [], childrenDesc := [],
       dom := some 4, effect := some EffectTag.DELETION } : OldFiber)
      ∈ (reconcileChildren
          [ { ty := .host "a", props := [], childrenDesc := [],
              dom := some 3, effect := none },
            { ty := .host "b", props := [], childrenDesc := [],
              dom := some 4, effect := none } ]
          [ VNode.mk (.host "a") [] [] none,
            VNode.mk (.host "c") [] [] (some "b") ]).2 :=
  (c4_type_decides_update_or_replace 1
    [ { ty := .host "a", props := [], childrenDesc := [],
        dom := some 3, effect := none },
      { ty := .host "b", props := [], childrenDesc := [],
        dom := some 4, effect := none } ]
    [ VNode.mk (.host "a") [] [] none,
      VNode.mk (.host "c") [] [] (some "b") ]
    { ty := .host "b", props := [], childrenDesc := [],
      dom := some 4, effect := none }
    (VNode.mk (.host "c") [] [] (some "b"))
    rfl rfl).2 (by decide)

/-! ## create_element

create_element pops the reserved key entry out of the props dict the caller
passed — a caller-visible in-place mutation — and then evaluates
(props or empty-dict): a dict left non-empty is returned as the VNode
props (the very same object); a None or empty dict (including a dict just
emptied by the pop) is replaced by a freshly allocated empty dict.  Object
identity is modelled with a store of mappings addressed by Nat: the props
argument is an address, allocation appends to the store, and the VNode
records the address of its props mapping. -/

structure Store where
  maps : List PropMap
deriving DecidableEq, Repr

/-- Read the mapping at an address. -/
def Store.getM (s : Store) (a : Nat) : PropMap :=
  (s.maps.get? a).getD []

/-- Overwrite the mapping at an address (the in-place dict mutation). -/
def Store.setM (s : Store) (a : Nat) (m : PropMap) : Store :=
  ⟨s.maps.set a m⟩

/-- Allocate a fresh mapping; its address is the previous store length. -/
def Store.alloc (s : Store) (m : PropMap) : Store × Nat :=
  (⟨s.maps ++ [m]⟩, s.maps.length)

/-- The virtual node returned by create_element: type, the address of its
props mapping, children, and the popped key value. -/
structure HVNode where
  ty : FType
  props : Nat
  children : List VNode
  key : Option Value

/-- props.pop on the reserved key: the mapping without its key entry. -/
def eraseKeyEntry (m : PropMap) : PropMap :=
  m.eraseP (fun kv => kv.1 == "key")

/-- Shallow embedding of create_element(type, props, *children).  The
condition of the source (props and key-in-props) is: the mapping is truthy
(non-empty) and holds a key entry; then the entry is popped in place.  The
returned VNode receives (props or empty-dict) evaluated after the pop, and
children (or the empty tuple) as given. -/
def createElement (ty : FType) (props : Option Nat) (children : List VNode)
    (s : Store) : HVNode × Store :=
  match props with
  | none =>
    let r := s.alloc []
    (⟨ty, r.2, children, none⟩, r.1)
  | some addr =>
    let m := s.getM addr
    if m ≠ [] ∧ (getProp m "key").isSome then
      let kv := getProp m "key"
      let m2 := eraseKeyEntry m
      let s1 := s.setM addr m2
      if m2 = [] then
        -- the pop emptied the dict: props or empty-dict allocates afresh
        let r := s1.alloc []
        (⟨ty, r.2, children, kv⟩, r.1)
      else
        (⟨ty, addr, children, kv⟩, s1)
    else
      if m = [] then
        let r := s.alloc []
        (⟨ty, r.2, children, none⟩, r.1)
      else
        (⟨ty, addr, children, none⟩, s)

/-- Claim C10 counterexample: with props being exactly the mapping holding
only the key entry, create_element does mutate the caller mapping in place
(the store at address 0 is emptied) and stores the popped key, but the
returned VNode props is a freshly allocated mapping at address 1, not the
caller object at address 0 — (props or empty-dict) discards the emptied
dict. -/
theorem c10_props_object_not_reused_when_emptied :
    (createElement (.host "t") (some 0) [] ⟨[[("key", Value.str "k")]]⟩).1.props
      = 1 ∧
    (1 : Nat) ≠ 0 ∧
    ((createElement (.host "t") (some 0) [] ⟨[[("key", Value.str "k")]]⟩).2).getM 0
      = [] ∧
    (createElement (.host "t") (some 0) [] ⟨[[("key", Value.str "k")]]⟩).1.key
      = some (.str "k") := by
  refine ⟨rfl, by decide, rfl, rfl⟩

theorem createElement_some (ty : FType) (children : List VNode) (s : Store)
    (addr : Nat) :
    createElement ty (some addr) children s
      = if (s.getM addr) ≠ [] ∧ (getProp (s.getM addr) "key").isSome then
          (if eraseKeyEntry (s.getM addr) = [] then
            (⟨ty, (s.setM addr (eraseKeyEntry (s.getM addr))).maps.length,
               children, getProp (s.getM addr) "key"⟩,
             ⟨(s.setM addr (eraseKeyEntry (s.getM addr))).maps ++ [[]]⟩)
          else
            (⟨ty, addr, children, getProp (s.getM addr) "key"⟩,
             s.setM addr (eraseKeyEntry (s.getM addr))))
        else
          (if (s.getM addr) = [] then
            (⟨ty, s.maps.length, children, none⟩, ⟨s.maps ++ [[]]⟩)
          else (⟨ty, addr, children, none⟩, s)) := rfl

/-- Claim C10 (amended): create_element with a props mapping holding a key
entry removes that entry from the very mapping the caller passed (a
caller-visible in-place mutation) and stores its value as the VNode key;
the returned VNode props is that same mapping object provided it is still
non-empty after the removal — when the removal leaves it empty, the VNode
instead receives a freshly allocated empty mapping.  When props is None or
an empty mapping, the VNode receives a fresh empty mapping, the key is
None, and children are as given (the empty tuple when absent). -/
theorem c10_create_element_semantics (ty : FType) (children : List VNode)
    (s : Store) (addr : Nat) :
    ((getProp (s.getM addr) "key").isSome →
      eraseKeyEntry (s.getM addr) ≠ [] →
      createElement ty (some addr) children s
        = (⟨ty, addr, children, getProp (s.getM addr) "key"⟩,
           s.setM addr (eraseKeyEntry (s.getM addr)))) ∧
    ((getProp (s.getM addr) "key").isSome →
      eraseKeyEntry (s.getM addr) = [] →
      createElement ty (some addr) children s
        = (⟨ty, (s.setM addr (eraseKeyEntry (s.getM addr))).maps.length,
             children, getProp (s.getM addr) "key"⟩,
           ⟨(s.setM addr (eraseKeyEntry (s.getM addr))).maps ++ [[]]⟩)) ∧
    (createElement ty none children s
      = (⟨ty, s.maps.length, children, none⟩, ⟨s.maps ++ [[]]⟩)) ∧
    (s.getM addr = [] →
      createElement ty (some addr) children s
        = (⟨ty, s.maps.length, children, none⟩, ⟨s.maps ++ [[]]⟩)) ∧
    (s.getM addr ≠ [] → getProp (s.getM addr) "key" = none →
      createElement ty (some addr) children s
        = (⟨ty, addr, children, none⟩, s)) := by
  have hne_of_some : (getProp (s.getM addr) "key").isSome → s.getM addr ≠ [] := by
    intro hs hemp
    rw [hemp] at hs
    simp [getProp] at hs
  refine ⟨?_, ?_, rfl, ?_, ?_⟩
  · intro hs hne
    rw [createElement_some, if_pos ⟨hne_of_some hs, hs⟩, if_neg hne]
  · intro hs hemp
    rw [createElement_some, if_pos ⟨hne_of_some hs, hs⟩, if_pos hemp]
  · intro hemp
    rw [createElement_some, if_neg (by simp [hemp]), if_pos hemp]
  · intro hne hnone
    rw [createElement_some, if_neg (by simp [hnone]), if_neg hne]

/-- Witness for claim C10: popping the key out of a two-entry mapping at
address 0 mutates it in place and the VNode keeps that same address. -/
theorem c10_witness :
    createElement (.host "t") (some 0) []
        ⟨[[("key", Value.str "k"), ("x", Value.num 1)]]⟩
      = (⟨.host "t", 0, [], some (.str "k")⟩, ⟨[[("x", Value.num 1)]]⟩) :=
  (c10_create_element_semantics (.host "t") []
    ⟨[[("key", Value.str "k"), ("x", Value.num 1)]]⟩ 0).1 (by decide) (by decide)
